import Mathlib

/-!
Verification of the tic-tac-toe move-selection core in `src/app/page.tsx`.

The embedding translates the three algorithmic functions of the source —
`evaluateWinner`, `minimax`, `pickBestMove` — together with the small data
model they operate on (a 9-cell board of optional marks, the fixed list of
winning triples, the difficulty table).  JavaScript numbers produced by
`Math.max(...scores)` / `Math.min(...scores)` can be `-Infinity` / `Infinity`
on an empty spread, so minimax scores live in `WithBot (WithTop Int)`.
The in-place mutate/undo discipline of the source is embedded by threading
the board value through every loop and returning it alongside the result,
so that the restore-on-exit behaviour is itself a provable statement.
-/

/-- The two marks, `"X"` and `"O"` in the source (`type Player = "X" | "O"`). -/
inductive Player where
  | X : Player
  | O : Player
deriving DecidableEq, Repr

/-- A board cell: a mark or `null`. -/
abbrev Cell := Option Player

/-- `board: (Player | null)[]` — an ordered list of cells. -/
abbrev Board := List Cell

/-- JavaScript indexing `board[i]`: out-of-range reads behave as absent
(`undefined` is falsy exactly like `null` in every guard of the source). -/
def cget (b : Board) (i : Nat) : Cell := b.getD i none

/-- The constant `WINNING_TRIOS` of the source, in its exact order:
three rows, three columns, main diagonal, anti-diagonal. -/
def WINNING_TRIOS : List (Nat × Nat × Nat) :=
  [(0, 1, 2), (3, 4, 5), (6, 7, 8),
   (0, 3, 6), (1, 4, 7), (2, 5, 8),
   (0, 4, 8), (2, 4, 6)]

/-- The guard `board[a] && board[a] === board[b] && board[b] === board[c]`. -/
def trioHit (b : Board) (t : Nat × Nat × Nat) : Bool :=
  decide ((cget b t.1).isSome ∧ cget b t.1 = cget b t.2.1 ∧ cget b t.2.1 = cget b t.2.2)

/-- The value returned by `evaluateWinner`. -/
structure EvalResult where
  winner : Option Player
  line : Option (Nat × Nat × Nat)
deriving DecidableEq, Repr

/-- `evaluateWinner` of the source: first matching trio wins, else
`{ winner: null, line: null }`. -/
def evaluateWinner (b : Board) : EvalResult :=
  match WINNING_TRIOS.find? (trioHit b) with
  | some t => ⟨cget b t.1, some t⟩
  | none => ⟨none, none⟩

/-- `board.every(Boolean)` — every cell is truthy, i.e. holds a mark. -/
def isFull (b : Board) : Bool := b.all (fun c => c.isSome)

/-- The ascending list of empty indices.  This is the `available` list of
`pickBestMove` (`board.map((cell, index) => cell === null ? index : null)
.filter(cell => cell !== null)`) and also exactly the indices visited by the
minimax loop `for (let i = 0; ...) if (board[i] !== null) continue`. -/
def availableOf (b : Board) : List Nat :=
  (List.range b.length).filter (fun i => decide (cget b i = none))

/-- Number of empty cells of a board. -/
def nEmpty (b : Board) : Nat := b.countP (fun c => decide (c = none))

/-- JavaScript numbers as used by the minimax scores: integers together
with `-Infinity` (`⊥`, the value of `Math.max(...[])` and the initial
`bestScore = Number.NEGATIVE_INFINITY`) and `Infinity` (`⊤`, the value of
`Math.min(...[])`). -/
abbrev JsInt := WithBot (WithTop Int)

/-- A finite JavaScript number. -/
def jsOfInt (z : Int) : JsInt := ((z : WithTop Int) : WithBot (WithTop Int))

/-- `Math.max(...scores)` — maximum of a list, `-Infinity` when empty. -/
def jsMax (l : List JsInt) : JsInt := l.foldr max ⊥

/-- `Math.min(...scores)` — minimum of a list, `Infinity` when empty. -/
def jsMin (l : List JsInt) : JsInt := l.foldr min ⊤

/-- `minimax` of the source, fuel-indexed, with the mutated board threaded
explicitly: the result pairs the returned score with the board as it stands
when the function returns (the source mutates `board[i]` and restores it with
`board[i] = null` after each recursive call).  The fuel only bounds the
recursion depth; at the call sites below it always dominates the number of
empty cells, so the `0` branch is unreachable there. -/
def minimaxF (fuel : Nat) (b : Board) (depth : Nat) (isMax : Bool)
    (ai human : Player) : JsInt × Board :=
  if (evaluateWinner b).winner = some ai then (jsOfInt (10 - (depth : Int)), b)
  else if (evaluateWinner b).winner = some human then (jsOfInt ((depth : Int) - 10), b)
  else if isFull b then (jsOfInt 0, b)
  else
    match fuel with
    | 0 => (jsOfInt 0, b)
    | Nat.succ fuel =>
      let current := if isMax then ai else human
      let r := (List.range b.length).foldl
        (fun acc i =>
          if (cget acc.2 i).isSome then acc
          else
            let r1 := minimaxF fuel (acc.2.set i (some current)) (depth + 1) (!isMax) ai human
            (acc.1 ++ [r1.1], r1.2.set i none))
        ([], b)
      ((if isMax then jsMax r.1 else jsMin r.1), r.2)

/-- The score computed by the source's `minimax` (fuel instantiated so that
it never runs out: one unit per empty cell plus one). -/
def minimax (b : Board) (depth : Nat) (isMax : Bool) (ai human : Player) : JsInt :=
  (minimaxF (nEmpty b + 1) b depth isMax ai human).1

/-- `type Difficulty = "relaxed" | "balanced" | "perfect"`. -/
inductive Difficulty where
  | relaxed : Difficulty
  | balanced : Difficulty
  | perfect : Difficulty
deriving DecidableEq, Repr

/-- The `mistakes` table of `pickBestMove`. -/
def mistakes : Difficulty → ℚ
  | Difficulty.relaxed => 55 / 100
  | Difficulty.balanced => 3 / 10
  | Difficulty.perfect => 0

/-- The two draws of `Math.random()` that `pickBestMove` may consume:
`roll` decides the mistake branch, `pick` selects the random cell. -/
structure Rng where
  roll : ℚ
  pick : ℚ

/-- Both draws come from `Math.random()`, hence lie in `[0, 1)`. -/
def Rng.Valid (r : Rng) : Prop :=
  0 ≤ r.roll ∧ r.roll < 1 ∧ 0 ≤ r.pick ∧ r.pick < 1

instance (r : Rng) : Decidable r.Valid := by
  unfold Rng.Valid
  infer_instance

/-- The two tactical loops of `pickBestMove` (immediate win with `p = ai`,
immediate block with `p = human`): place `p`, test the evaluator, restore,
and return the first hit.  The board is threaded to mirror the in-place
mutation. -/
def winCheck (l : List Nat) (b : Board) (p : Player) : Option Nat × Board :=
  match l with
  | [] => (none, b)
  | m :: rest =>
    let b1 := b.set m (some p)
    if (evaluateWinner b1).winner = some p then (some m, b1.set m none)
    else winCheck rest (b1.set m none) p

/-- The minimax selection loop of `pickBestMove`: `bestScore` starts at
`Number.NEGATIVE_INFINITY`, `chosenMove` at `available[0]!`, and a candidate
replaces the current choice only on a strictly greater score. -/
def bestLoop (l : List Nat) (b : Board) (ai human : Player)
    (acc : JsInt × Nat) : Nat × Board :=
  match l with
  | [] => (acc.2, b)
  | m :: rest =>
    let b1 := b.set m (some ai)
    let r := minimaxF (nEmpty b1 + 1) b1 0 false ai human
    let b2 := r.2.set m none
    if acc.1 < r.1 then bestLoop rest b2 ai human (r.1, m)
    else bestLoop rest b2 ai human acc

/-- `pickBestMove` of the source, with the final state of the caller-supplied
board returned alongside the chosen index. -/
def pickBestMove (b : Board) (ai human : Player) (diff : Difficulty)
    (rng : Rng) : Option Nat × Board :=
  if (availableOf b).isEmpty then (none, b)
  else
    match winCheck (availableOf b) b ai with
    | (some m, b1) => (some m, b1)
    | (none, b1) =>
      match winCheck (availableOf b) b1 human with
      | (some m, b2) => (some m, b2)
      | (none, b2) =>
        if rng.roll < mistakes diff then
          (some ((availableOf b).getD
            (Int.toNat ⌊rng.pick * ((availableOf b).length : ℚ)⌋) 0), b2)
        else
          (some (bestLoop (availableOf b) b2 ai human (⊥, (availableOf b).headD 0)).1,
           (bestLoop (availableOf b) b2 ai human (⊥, (availableOf b).headD 0)).2)

/-- The round outcome as derived by the caller `makeMove`
(`outcome || boardFilled` → `applyWin(outcome ?? "tie", outcome ? line : null)`,
otherwise the round continues). -/
inductive Outcome where
  | win : Player → Outcome
  | tie : Outcome
  | ongoing : Outcome
deriving DecidableEq, Repr

/-- The outcome-with-line the orchestrator computes from a board after a move:
the evaluator's winner when there is one, `tie` on a full winnerless board,
`ongoing` otherwise. -/
def roundOutcome (b : Board) : Outcome × Option (Nat × Nat × Nat) :=
  match (evaluateWinner b).winner with
  | some p => (Outcome.win p, (evaluateWinner b).line)
  | none => if isFull b then (Outcome.tie, none) else (Outcome.ongoing, none)

/-! ### Basic board lemmas -/

theorem cget_nil (i : Nat) : cget [] i = none := rfl

theorem set_oob (b : Board) (i : Nat) (c : Cell) (h : b.length ≤ i) : b.set i c = b := by
  induction b generalizing i with
  | nil => rfl
  | cons a t ih =>
    cases i with
    | zero => simp at h
    | succ j => simp only [List.set]; rw [ih j (by simpa using h)]

theorem cget_set_self (b : Board) (i : Nat) (c : Cell) (h : i < b.length) :
    cget (b.set i c) i = c := by
  induction b generalizing i with
  | nil => simp at h
  | cons a t ih =>
    cases i with
    | zero => rfl
    | succ j => exact ih j (by simpa using h)

theorem cget_set_ne (b : Board) (i j : Nat) (c : Cell) (h : i ≠ j) :
    cget (b.set i c) j = cget b j := by
  induction b generalizing i j with
  | nil => rfl
  | cons a t ih =>
    cases i with
    | zero =>
      cases j with
      | zero => exact absurd rfl h
      | succ k => rfl
    | succ i' =>
      cases j with
      | zero => rfl
      | succ k => exact ih i' k (by omega)

theorem set_none_id (b : Board) (i : Nat) (h : cget b i = none) : b.set i none = b := by
  induction b generalizing i with
  | nil => rfl
  | cons a t ih =>
    cases i with
    | zero =>
      have : a = none := h
      simp [List.set, this]
    | succ j =>
      simp only [List.set]
      rw [ih j h]

theorem set_set_cell (b : Board) (i : Nat) (c d : Cell) : (b.set i c).set i d = b.set i d := by
  induction b generalizing i with
  | nil => rfl
  | cons a t ih =>
    cases i with
    | zero => rfl
    | succ j => simp only [List.set]; rw [ih]

/-- Place-then-restore is the identity on a cell that was empty. -/
theorem set_undo (b : Board) (i : Nat) (c : Cell) (h : cget b i = none) :
    (b.set i c).set i none = b := by
  rw [set_set_cell, set_none_id b i h]

theorem nEmpty_set (b : Board) (i : Nat) (p : Player) (h1 : i < b.length)
    (h2 : cget b i = none) : nEmpty (b.set i (some p)) + 1 = nEmpty b := by
  induction b generalizing i with
  | nil => simp at h1
  | cons a t ih =>
    cases i with
    | zero =>
      have : a = none := h2
      simp [nEmpty, List.set, List.countP_cons, this]
    | succ j =>
      have := ih j (by simpa using h1) h2
      simp only [nEmpty, List.set, List.countP_cons] at this ⊢
      omega

theorem nEmpty_le_length (b : Board) : nEmpty b ≤ b.length := List.countP_le_length _

theorem avail_mem (b : Board) (m : Nat) :
    m ∈ availableOf b ↔ m < b.length ∧ cget b m = none := by
  simp [availableOf, List.mem_filter, List.mem_range]

theorem avail_all_none (b : Board) : ∀ m ∈ availableOf b, cget b m = none :=
  fun m hm => ((avail_mem b m).mp hm).2

theorem isFull_false_iff (b : Board) :
    isFull b = false ↔ ∃ i, i < b.length ∧ cget b i = none := by
  induction b with
  | nil => simp [isFull]
  | cons a t ih =>
    cases a with
    | none =>
      constructor
      · intro _; exact ⟨0, by simp, rfl⟩
      · intro _; simp [isFull]
    | some p =>
      simp only [isFull, List.all_cons, Option.isSome_some, Bool.true_and]
      rw [show (List.all t fun c => c.isSome) = isFull t from rfl, ih]
      constructor
      · rintro ⟨i, hi, hc⟩
        exact ⟨i + 1, by simpa using hi, hc⟩
      · rintro ⟨i, hi, hc⟩
        cases i with
        | zero => exact absurd hc (by simp [cget])
        | succ j => exact ⟨j, by simpa using hi, hc⟩

theorem avail_nil_iff (b : Board) : availableOf b = [] ↔ isFull b = true := by
  constructor
  · intro h
    by_contra hf
    have hf' : isFull b = false := by
      cases hfull : isFull b
      · rfl
      · exact absurd hfull hf
    obtain ⟨i, hi, hc⟩ := (isFull_false_iff b).mp hf'
    have : i ∈ availableOf b := (avail_mem b i).mpr ⟨hi, hc⟩
    rw [h] at this
    exact absurd this (List.not_mem_nil i)
  · intro h
    by_contra hne
    obtain ⟨m, hm⟩ := List.exists_mem_of_ne_nil _ hne
    have ⟨hlt, hc⟩ := (avail_mem b m).mp hm
    have : isFull b = false := (isFull_false_iff b).mpr ⟨m, hlt, hc⟩
    rw [h] at this
    exact Bool.noConfusion this

theorem isFull_false_of_empty_cell (b : Board) (i : Nat) (h1 : i < b.length)
    (h2 : cget b i = none) : isFull b = false :=
  (isFull_false_iff b).mpr ⟨i, h1, h2⟩

/-! ### JsInt lemmas -/

theorem jsOfInt_ne_bot (z : Int) : jsOfInt z ≠ (⊥ : JsInt) := WithBot.coe_ne_bot

theorem jsOfInt_zero : jsOfInt 0 = (0 : JsInt) := rfl

theorem jsOfInt_le_iff (a b : Int) : jsOfInt a ≤ jsOfInt b ↔ a ≤ b := by
  unfold jsOfInt
  rw [WithBot.coe_le_coe, WithTop.coe_le_coe]

theorem jsOfInt_nonneg_iff (z : Int) : (0 : JsInt) ≤ jsOfInt z ↔ 0 ≤ z := by
  rw [← jsOfInt_zero, jsOfInt_le_iff]

theorem bot_lt_jsOfInt (z : Int) : (⊥ : JsInt) < jsOfInt z := WithBot.bot_lt_coe _

theorem jsMax_nonneg_iff (l : List JsInt) : (0 : JsInt) ≤ jsMax l ↔ ∃ x ∈ l, (0 : JsInt) ≤ x := by
  induction l with
  | nil =>
    constructor
    · intro h
      simp only [jsMax, List.foldr_nil] at h
      have hb : (0 : JsInt) = ⊥ := le_bot_iff.mp h
      exact absurd (jsOfInt_zero.trans hb) (jsOfInt_ne_bot 0)
    · rintro ⟨x, hx, -⟩; exact absurd hx (List.not_mem_nil x)
  | cons a t ih =>
    simp only [jsMax, List.foldr_cons, List.mem_cons]
    rw [le_max_iff]
    constructor
    · rintro (h | h)
      · exact ⟨a, Or.inl rfl, h⟩
      · obtain ⟨x, hx, hx0⟩ := ih.mp h
        exact ⟨x, Or.inr hx, hx0⟩
    · rintro ⟨x, (rfl | hx), hx0⟩
      · exact Or.inl hx0
      · exact Or.inr (ih.mpr ⟨x, hx, hx0⟩)

theorem jsMin_nonneg_iff (l : List JsInt) : (0 : JsInt) ≤ jsMin l ↔ ∀ x ∈ l, (0 : JsInt) ≤ x := by
  induction l with
  | nil => simp [jsMin]
  | cons a t ih =>
    simp only [jsMin, List.foldr_cons, List.mem_cons]
    rw [le_min_iff]
    constructor
    · rintro ⟨ha, ht⟩ x (rfl | hx)
      · exact ha
      · exact ih.mp ht x hx
    · intro h
      exact ⟨h a (Or.inl rfl), ih.mpr (fun x hx => h x (Or.inr hx))⟩

theorem jsMin_le_of_mem (l : List JsInt) (x : JsInt) (h : x ∈ l) : jsMin l ≤ x := by
  induction l with
  | nil => exact absurd h (List.not_mem_nil x)
  | cons a t ih =>
    simp only [jsMin, List.foldr_cons]
    rcases List.mem_cons.mp h with rfl | hx
    · exact min_le_left _ _
    · exact le_trans (min_le_right _ _) (ih hx)

theorem le_jsMax_of_mem (l : List JsInt) (x : JsInt) (h : x ∈ l) : x ≤ jsMax l := by
  induction l with
  | nil => exact absurd h (List.not_mem_nil x)
  | cons a t ih =>
    simp only [jsMax, List.foldr_cons]
    rcases List.mem_cons.mp h with rfl | hx
    · exact le_max_left _ _
    · exact le_trans (ih hx) (le_max_right _ _)

theorem jsMax_finite (l : List JsInt) (hne : l ≠ [])
    (hfin : ∀ x ∈ l, ∃ z : Int, x = jsOfInt z) : ∃ z : Int, jsMax l = jsOfInt z := by
  induction l with
  | nil => exact absurd rfl hne
  | cons a t ih =>
    simp only [jsMax, List.foldr_cons]
    cases t with
    | nil =>
      obtain ⟨z, hz⟩ := hfin a (List.mem_cons_self a [])
      refine ⟨z, ?_⟩
      simp only [jsMax, List.foldr_nil]
      rw [max_eq_left bot_le, hz]
    | cons b' t' =>
      rcases max_choice a (jsMax (b' :: t')) with h | h
      · obtain ⟨z, hz⟩ := hfin a (List.mem_cons_self a _)
        exact ⟨z, by rw [show List.foldr max ⊥ (b' :: t') = jsMax (b' :: t') from rfl, h, hz]⟩
      · obtain ⟨z, hz⟩ := ih (by simp) (fun x hx => hfin x (List.mem_cons_of_mem a hx))
        exact ⟨z, by rw [show List.foldr max ⊥ (b' :: t') = jsMax (b' :: t') from rfl, h, hz]⟩

theorem jsMin_finite (l : List JsInt) (hne : l ≠ [])
    (hfin : ∀ x ∈ l, ∃ z : Int, x = jsOfInt z) : ∃ z : Int, jsMin l = jsOfInt z := by
  induction l with
  | nil => exact absurd rfl hne
  | cons a t ih =>
    simp only [jsMin, List.foldr_cons]
    cases t with
    | nil =>
      obtain ⟨z, hz⟩ := hfin a (List.mem_cons_self a [])
      refine ⟨z, ?_⟩
      simp only [jsMin, List.foldr_nil]
      rw [min_eq_left le_top, hz]
    | cons b' t' =>
      rcases min_choice a (jsMin (b' :: t')) with h | h
      · obtain ⟨z, hz⟩ := hfin a (List.mem_cons_self a _)
        exact ⟨z, by rw [show List.foldr min ⊤ (b' :: t') = jsMin (b' :: t') from rfl, h, hz]⟩
      · obtain ⟨z, hz⟩ := ih (by simp) (fun x hx => hfin x (List.mem_cons_of_mem a hx))
        exact ⟨z, by rw [show List.foldr min ⊤ (b' :: t') = jsMin (b' :: t') from rfl, h, hz]⟩

/-! ### The minimax recursion equation -/

theorem isSome_false_eq_none {o : Cell} (h : o.isSome = false) : o = none := by
  cases o with
  | none => rfl
  | some p => simp at h

/-- One iteration of the minimax move loop (`board[i] = current; recurse;
board[i] = null`), named so the fold can be reasoned about. -/
def mmStep (fuel depth : Nat) (isMax : Bool) (ai human current : Player) :
    (List JsInt × Board) → Nat → (List JsInt × Board) :=
  fun acc i =>
    if (cget acc.2 i).isSome then acc
    else
      let r1 := minimaxF fuel (acc.2.set i (some current)) (depth + 1) (!isMax) ai human
      (acc.1 ++ [r1.1], r1.2.set i none)

theorem minimaxF_succ (fuel : Nat) (b : Board) (depth : Nat) (isMax : Bool)
    (ai human : Player) :
    minimaxF (fuel + 1) b depth isMax ai human =
      if (evaluateWinner b).winner = some ai then (jsOfInt (10 - (depth : Int)), b)
      else if (evaluateWinner b).winner = some human then (jsOfInt ((depth : Int) - 10), b)
      else if isFull b then (jsOfInt 0, b)
      else
        let current := if isMax then ai else human
        let r := (List.range b.length).foldl (mmStep fuel depth isMax ai human current) ([], b)
        ((if isMax then jsMax r.1 else jsMin r.1), r.2) := rfl

theorem foldl_mmStep_frame (fuel depth : Nat) (isMax : Bool) (ai human current : Player)
    (IH : ∀ b d mx, (minimaxF fuel b d mx ai human).2 = b) :
    ∀ (idxs : List Nat) (sc : List JsInt) (b : Board),
      (idxs.foldl (mmStep fuel depth isMax ai human current) (sc, b)).2 = b := by
  intro idxs
  induction idxs with
  | nil => intro sc b; rfl
  | cons i rest ih =>
    intro sc b
    simp only [List.foldl_cons]
    cases hsome : (cget b i).isSome with
    | true =>
      rw [show mmStep fuel depth isMax ai human current (sc, b) i = (sc, b) from by
        simp [mmStep, hsome]]
      exact ih sc b
    | false =>
      have hnone : cget b i = none := isSome_false_eq_none hsome
      rw [show mmStep fuel depth isMax ai human current (sc, b) i
          = (sc ++ [(minimaxF fuel (b.set i (some current)) (depth + 1) (!isMax) ai human).1], b) from by
        simp only [mmStep, hsome, Bool.false_eq_true, if_false]
        rw [IH, set_undo b i (some current) hnone]]
      exact ih _ b

theorem minimaxF_frame (fuel : Nat) :
    ∀ (b : Board) (depth : Nat) (isMax : Bool) (ai human : Player),
      (minimaxF fuel b depth isMax ai human).2 = b := by
  induction fuel with
  | zero =>
    intro b d mx ai hu
    unfold minimaxF
    split
    · rfl
    · split
      · rfl
      · split
        · rfl
        · rfl
  | succ fuel ih =>
    intro b d mx ai hu
    rw [minimaxF_succ]
    split
    · rfl
    · split
      · rfl
      · split
        · rfl
        · exact foldl_mmStep_frame fuel d mx ai hu _ (fun b' d' m' => ih b' d' m' ai hu)
            (List.range b.length) [] b

theorem foldl_mmStep_scores (fuel depth : Nat) (isMax : Bool) (ai human current : Player) :
    ∀ (idxs : List Nat) (sc : List JsInt) (b : Board),
      (idxs.foldl (mmStep fuel depth isMax ai human current) (sc, b)).1
        = sc ++ (idxs.filter (fun i => decide (cget b i = none))).map
            (fun i => (minimaxF fuel (b.set i (some current)) (depth + 1) (!isMax) ai human).1) := by
  intro idxs
  induction idxs with
  | nil => intro sc b; simp
  | cons i rest ih =>
    intro sc b
    simp only [List.foldl_cons, List.filter_cons]
    cases hsome : (cget b i).isSome with
    | true =>
      rw [show mmStep fuel depth isMax ai human current (sc, b) i = (sc, b) from by
        simp [mmStep, hsome]]
      have hdec : decide (cget b i = none) = false := by
        cases hc : cget b i
        · rw [hc] at hsome; simp at hsome
        · simp [hc]
      rw [hdec]
      exact ih sc b
    | false =>
      have hnone : cget b i = none := isSome_false_eq_none hsome
      rw [show mmStep fuel depth isMax ai human current (sc, b) i
          = (sc ++ [(minimaxF fuel (b.set i (some current)) (depth + 1) (!isMax) ai human).1], b) from by
        simp only [mmStep, hsome, Bool.false_eq_true, if_false]
        rw [minimaxF_frame, set_undo b i (some current) hnone]]
      have hdec : decide (cget b i = none) = true := by simp [hnone]
      rw [hdec, ih _ b]
      simp

theorem map_congr_mem {α β : Type} (l : List α) (f g : α → β)
    (h : ∀ a ∈ l, f a = g a) : l.map f = l.map g := by
  induction l with
  | nil => rfl
  | cons a t ih =>
    simp only [List.map_cons]
    rw [h a (List.mem_cons_self a t), ih (fun x hx => h x (List.mem_cons_of_mem a hx))]

/-- The source's recursion, read off the fuel-free `minimax`: terminal scores
`10 - depth` / `depth - 10` / `0`, otherwise max (maximising) or min
(minimising) of the recursive scores over the empty cells in ascending
order. -/
theorem minimax_eq (b : Board) (depth : Nat) (isMax : Bool) (ai human : Player) :
    minimax b depth isMax ai human =
      if (evaluateWinner b).winner = some ai then jsOfInt (10 - (depth : Int))
      else if (evaluateWinner b).winner = some human then jsOfInt ((depth : Int) - 10)
      else if isFull b then jsOfInt 0
      else (if isMax then jsMax else jsMin)
        ((availableOf b).map (fun i =>
          minimax (b.set i (some (if isMax then ai else human))) (depth + 1) (!isMax) ai human)) := by
  unfold minimax
  rw [minimaxF_succ]
  split
  · rfl
  · split
    · rfl
    · split
      · rfl
      · dsimp only
        have hsc := foldl_mmStep_scores (nEmpty b) depth isMax ai human
          (if isMax then ai else human) (List.range b.length) [] b
        rw [List.nil_append] at hsc
        rw [show ((List.range b.length).filter (fun i => decide (cget b i = none)))
            = availableOf b from rfl] at hsc
        rw [hsc]
        have hmap := map_congr_mem (availableOf b)
          (fun i => (minimaxF (nEmpty b) (b.set i (some (if isMax then ai else human)))
            (depth + 1) (!isMax) ai human).1)
          (fun i => (minimaxF (nEmpty (b.set i (some (if isMax then ai else human))) + 1)
            (b.set i (some (if isMax then ai else human)))
            (depth + 1) (!isMax) ai human).1)
          (fun i hi => by
            obtain ⟨hlt, hnone⟩ := (avail_mem b i).mp hi
            dsimp only
            rw [nEmpty_set b i _ hlt hnone])
        rw [hmap]
        cases isMax with
        | true => rfl
        | false => rfl

/-! ### Finiteness of minimax scores -/

theorem minimax_finite (b : Board) (depth : Nat) (isMax : Bool) (ai human : Player) :
    ∃ z : Int, minimax b depth isMax ai human = jsOfInt z := by
  generalize hn : nEmpty b = n
  induction n using Nat.strong_induction_on generalizing b depth isMax with
  | _ n ih =>
    rw [minimax_eq]
    split
    · exact ⟨10 - (depth : Int), rfl⟩
    · split
      · exact ⟨(depth : Int) - 10, rfl⟩
      · split
        · exact ⟨0, rfl⟩
        · next h1 h2 h3 =>
          have hnotfull : isFull b = false := by
            cases hff : isFull b
            · rfl
            · exact absurd hff h3
          have havail : availableOf b ≠ [] := by
            intro hav
            rw [(avail_nil_iff b).mp hav] at hnotfull
            exact Bool.noConfusion hnotfull
          have hmapne : ((availableOf b).map (fun i =>
              minimax (b.set i (some (if isMax then ai else human)))
                (depth + 1) (!isMax) ai human)) ≠ [] := by
            intro hmap
            exact havail (List.map_eq_nil_iff.mp hmap)
          have hfin : ∀ x ∈ (availableOf b).map (fun i =>
              minimax (b.set i (some (if isMax then ai else human)))
                (depth + 1) (!isMax) ai human), ∃ z : Int, x = jsOfInt z := by
            intro x hx
            obtain ⟨i, hi, rfl⟩ := List.mem_map.mp hx
            obtain ⟨hlt, hnone⟩ := (avail_mem b i).mp hi
            have hdec : nEmpty (b.set i (some (if isMax then ai else human))) + 1 = n := by
              rw [nEmpty_set b i _ hlt hnone, hn]
            exact ih (nEmpty (b.set i (some (if isMax then ai else human))))
              (by omega) _ _ _ rfl
          cases isMax with
          | true => exact jsMax_finite _ hmapne hfin
          | false => exact jsMin_finite _ hmapne hfin

/-! ### Evaluator lemmas -/

/-- A trio completely occupied by mark `p`. -/
def trioAll (b : Board) (t : Nat × Nat × Nat) (p : Player) : Prop :=
  cget b t.1 = some p ∧ cget b t.2.1 = some p ∧ cget b t.2.2 = some p

instance (b : Board) (t : Nat × Nat × Nat) (p : Player) : Decidable (trioAll b t p) := by
  unfold trioAll
  infer_instance

theorem trioHit_iff (b : Board) (t : Nat × Nat × Nat) :
    trioHit b t = true ↔ ∃ p, trioAll b t p := by
  unfold trioHit trioAll
  simp only [decide_eq_true_eq]
  constructor
  · rintro ⟨hs, h12, h23⟩
    obtain ⟨p, hp⟩ := Option.isSome_iff_exists.mp hs
    exact ⟨p, hp, by rw [← h12, hp], by rw [← h23, ← h12, hp]⟩
  · rintro ⟨p, h1, h2, h3⟩
    exact ⟨by rw [h1]; rfl, by rw [h1, h2], by rw [h2, h3]⟩

theorem EW_none_iff (b : Board) :
    (evaluateWinner b).winner = none ↔ ∀ t ∈ WINNING_TRIOS, trioHit b t = false := by
  unfold evaluateWinner
  cases hf : WINNING_TRIOS.find? (trioHit b) with
  | none =>
    constructor
    · intro _ t ht
      exact Bool.not_eq_true _ |>.mp (List.find?_eq_none.mp hf t ht)
    · intro _; rfl
  | some t =>
    have hhit := List.find?_some hf
    have hmem := List.mem_of_find?_eq_some hf
    constructor
    · intro hw
      obtain ⟨p, hp⟩ := (trioHit_iff b t).mp hhit
      dsimp only at hw
      rw [hp.1] at hw
      exact Option.noConfusion hw
    · intro hall
      rw [hall t hmem] at hhit
      exact Bool.noConfusion hhit

theorem EW_some (b : Board) (p : Player) (h : (evaluateWinner b).winner = some p) :
    ∃ t, WINNING_TRIOS.find? (trioHit b) = some t ∧ t ∈ WINNING_TRIOS ∧ trioAll b t p ∧
      evaluateWinner b = ⟨some p, some t⟩ := by
  unfold evaluateWinner at h ⊢
  cases hf : WINNING_TRIOS.find? (trioHit b) with
  | none => rw [hf] at h; exact Option.noConfusion h
  | some t =>
    rw [hf] at h
    dsimp only at h
    have hhit := List.find?_some hf
    obtain ⟨q, hq⟩ := (trioHit_iff b t).mp hhit
    have hqp : q = p := by
      rw [hq.1] at h
      exact Option.some.inj h
    subst hqp
    exact ⟨t, rfl, List.mem_of_find?_eq_some hf, hq, by
      show EvalResult.mk (cget b t.1) (some t) = EvalResult.mk (some q) (some t)
      rw [h]⟩

theorem trioAll_hit (b : Board) (t : Nat × Nat × Nat) (p : Player) (h : trioAll b t p) :
    trioHit b t = true := (trioHit_iff b t).mpr ⟨p, h⟩

/-- If a trio was not complete and becomes complete after placing `pl`, the
common mark of the completed trio is `pl` itself. -/
theorem hit_set_cases (b : Board) (i : Nat) (pl : Player) (t : Nat × Nat × Nat)
    (hb : trioHit b t = false) (h : trioHit (b.set i (some pl)) t = true) :
    trioAll (b.set i (some pl)) t pl := by
  obtain ⟨q, hq⟩ := (trioHit_iff _ t).mp h
  suffices hqp : q = pl by exact hqp ▸ hq
  by_contra hne
  have key : ∀ j, cget (b.set i (some pl)) j = some q → cget b j = some q := by
    intro j hj
    by_cases hij : i = j
    · subst hij
      by_cases hlen : i < b.length
      · rw [cget_set_self b i _ hlen] at hj
        exact absurd (Option.some.inj hj).symm hne
      · rwa [set_oob b i _ (Nat.le_of_not_lt hlen)] at hj
    · rwa [cget_set_ne b i j _ hij] at hj
  have hall : trioAll b t q := ⟨key t.1 hq.1, key t.2.1 hq.2.1, key t.2.2 hq.2.2⟩
  rw [trioAll_hit b t q hall] at hb
  exact Bool.noConfusion hb

/-- Placing a mark on a board with no completed line yields a board whose
winner, if any, is that mark. -/
theorem winner_set_cases (b : Board) (i : Nat) (pl : Player)
    (hL : (evaluateWinner b).winner = none) :
    (evaluateWinner (b.set i (some pl))).winner = none ∨
    (evaluateWinner (b.set i (some pl))).winner = some pl := by
  cases hf : WINNING_TRIOS.find? (trioHit (b.set i (some pl))) with
  | none =>
    left
    unfold evaluateWinner
    rw [hf]
  | some t =>
    right
    have hhit := List.find?_some hf
    have hmem := List.mem_of_find?_eq_some hf
    have hb : trioHit b t = false := (EW_none_iff b).mp hL t hmem
    have hall := hit_set_cases b i pl t hb hhit
    unfold evaluateWinner
    rw [hf]
    exact hall.1

/-! ### The tactical loops -/

theorem isEmpty_false_of_ne {l : List Nat} (h : l ≠ []) : l.isEmpty = false := by
  cases l with
  | nil => exact absurd rfl h
  | cons a t => rfl

theorem not_isEmpty_of_ne {l : List Nat} (h : l ≠ []) : ¬ (l.isEmpty = true) := by
  rw [isEmpty_false_of_ne h]
  exact Bool.noConfusion

theorem winCheck_spec (p : Player) : ∀ (l : List Nat) (b : Board),
    (∀ m ∈ l, cget b m = none) →
    winCheck l b p
      = (l.find? (fun m => decide ((evaluateWinner (b.set m (some p))).winner = some p)), b) := by
  intro l
  induction l with
  | nil => intro b _; rfl
  | cons m rest ih =>
    intro b hall
    have hm : cget b m = none := hall m (List.mem_cons_self m rest)
    unfold winCheck
    dsimp only
    rw [set_undo b m (some p) hm]
    cases hc : decide ((evaluateWinner (b.set m (some p))).winner = some p) with
    | true =>
      rw [if_pos (of_decide_eq_true hc)]
      simp [List.find?_cons, hc]
    | false =>
      rw [if_neg (of_decide_eq_false hc)]
      simp only [List.find?_cons, hc]
      exact ih b (fun x hx => hall x (List.mem_cons_of_mem m hx))

theorem find?_first_lt {p : Nat → Bool} : ∀ (l : List Nat), l.Pairwise (· < ·) →
    ∀ m, m ∈ l → p m = true → (∀ k ∈ l, k < m → p k = false) → l.find? p = some m := by
  intro l
  induction l with
  | nil => intro _ m hm; exact fun _ _ => absurd hm (List.not_mem_nil m)
  | cons a rest ih =>
    intro hpw m hm hpm hmin
    rcases List.mem_cons.mp hm with rfl | hm'
    · simp [List.find?_cons, hpm]
    · have halt : a < m := (List.pairwise_cons.mp hpw).1 m hm'
      have hpa : p a = false := hmin a (List.mem_cons_self a rest) halt
      simp only [List.find?_cons, hpa]
      exact ih (List.pairwise_cons.mp hpw).2 m hm' hpm
        (fun k hk hkm => hmin k (List.mem_cons_of_mem a hk) hkm)

theorem avail_pairwise (b : Board) : (availableOf b).Pairwise (· < ·) :=
  (List.pairwise_lt_range b.length).filter _

/-! ### The selection loop and the branch structure of pickBestMove -/

theorem bestLoop_frame (ai hu : Player) : ∀ (l : List Nat) (b : Board) (acc : JsInt × Nat),
    (∀ m ∈ l, cget b m = none) → (bestLoop l b ai hu acc).2 = b := by
  intro l
  induction l with
  | nil => intro b acc _; rfl
  | cons m rest ih =>
    intro b acc hall
    unfold bestLoop
    dsimp only
    rw [minimaxF_frame, set_undo b m (some ai) (hall m (List.mem_cons_self m rest))]
    have hrest : ∀ x ∈ rest, cget b x = none :=
      fun x hx => hall x (List.mem_cons_of_mem m hx)
    split
    · exact ih b _ hrest
    · exact ih b acc hrest

theorem bestLoop_step (ai hu : Player) (m : Nat) (rest : List Nat) (b : Board)
    (best : JsInt) (ch : Nat) (hm : cget b m = none) :
    bestLoop (m :: rest) b ai hu (best, ch)
      = if best < minimax (b.set m (some ai)) 0 false ai hu
        then bestLoop rest b ai hu (minimax (b.set m (some ai)) 0 false ai hu, m)
        else bestLoop rest b ai hu (best, ch) := by
  conv_lhs => unfold bestLoop
  dsimp only
  rw [minimaxF_frame, set_undo b m (some ai) hm]
  rfl

theorem bestLoop_spec (ai hu : Player) : ∀ (l : List Nat) (b : Board) (best : JsInt) (ch : Nat),
    (∀ m ∈ l, cget b m = none) →
    ((bestLoop l b ai hu (best, ch)).1 = ch ∧
      ∀ m ∈ l, minimax (b.set m (some ai)) 0 false ai hu ≤ best) ∨
    ((bestLoop l b ai hu (best, ch)).1 ∈ l ∧
      best ≤ minimax (b.set (bestLoop l b ai hu (best, ch)).1 (some ai)) 0 false ai hu ∧
      ∀ m ∈ l, minimax (b.set m (some ai)) 0 false ai hu
        ≤ minimax (b.set (bestLoop l b ai hu (best, ch)).1 (some ai)) 0 false ai hu) := by
  intro l
  induction l with
  | nil =>
    intro b best ch _
    left
    exact ⟨rfl, by intro m hm; exact absurd hm (List.not_mem_nil m)⟩
  | cons m rest ih =>
    intro b best ch hall
    have hm := hall m (List.mem_cons_self m rest)
    have hrest : ∀ x ∈ rest, cget b x = none :=
      fun x hx => hall x (List.mem_cons_of_mem m hx)
    rw [bestLoop_step ai hu m rest b best ch hm]
    by_cases hlt : best < minimax (b.set m (some ai)) 0 false ai hu
    · rw [if_pos hlt]
      rcases ih b (minimax (b.set m (some ai)) 0 false ai hu) m hrest with
        ⟨heq, hall2⟩ | ⟨hmem, hge, hall2⟩
      · right
        rw [heq]
        refine ⟨List.mem_cons_self m rest, le_of_lt hlt, ?_⟩
        intro x hx
        rcases List.mem_cons.mp hx with rfl | hx'
        · exact le_refl _
        · exact hall2 x hx'
      · right
        refine ⟨List.mem_cons_of_mem m hmem, le_trans (le_of_lt hlt) hge, ?_⟩
        intro x hx
        rcases List.mem_cons.mp hx with rfl | hx'
        · exact hge
        · exact hall2 x hx'
    · rw [if_neg hlt]
      have hle : minimax (b.set m (some ai)) 0 false ai hu ≤ best := le_of_not_lt hlt
      rcases ih b best ch hrest with ⟨heq, hall2⟩ | ⟨hmem, hge, hall2⟩
      · left
        refine ⟨heq, ?_⟩
        intro x hx
        rcases List.mem_cons.mp hx with rfl | hx'
        · exact hle
        · exact hall2 x hx'
      · right
        refine ⟨List.mem_cons_of_mem m hmem, hge, ?_⟩
        intro x hx
        rcases List.mem_cons.mp hx with rfl | hx'
        · exact le_trans hle hge
        · exact hall2 x hx'

/-- On a board with an empty cell the selection loop picks a member of the
candidate list that maximises the minimax score. -/
theorem bestLoop_argmax (ai hu : Player) (b : Board) (hne : availableOf b ≠ []) :
    (bestLoop (availableOf b) b ai hu (⊥, (availableOf b).headD 0)).1 ∈ availableOf b ∧
    ∀ m ∈ availableOf b, minimax (b.set m (some ai)) 0 false ai hu
      ≤ minimax (b.set (bestLoop (availableOf b) b ai hu (⊥, (availableOf b).headD 0)).1
          (some ai)) 0 false ai hu := by
  rcases bestLoop_spec ai hu (availableOf b) b ⊥ ((availableOf b).headD 0)
    (avail_all_none b) with ⟨-, hall⟩ | ⟨hmem, -, hall⟩
  · exfalso
    obtain ⟨m, hm⟩ := List.exists_mem_of_ne_nil _ hne
    have hle := hall m hm
    obtain ⟨z, hz⟩ := minimax_finite (b.set m (some ai)) 0 false ai hu
    rw [hz] at hle
    exact jsOfInt_ne_bot z (le_bot_iff.mp hle)
  · exact ⟨hmem, hall⟩

theorem pick_nil (b : Board) (ai hu : Player) (diff : Difficulty) (rng : Rng)
    (h : availableOf b = []) : pickBestMove b ai hu diff rng = (none, b) := by
  unfold pickBestMove
  rw [h]
  rfl

theorem pick_win (b : Board) (ai hu : Player) (diff : Difficulty) (rng : Rng) (m : Nat)
    (hne : availableOf b ≠ [])
    (hf : (availableOf b).find?
      (fun m => decide ((evaluateWinner (b.set m (some ai))).winner = some ai)) = some m) :
    pickBestMove b ai hu diff rng = (some m, b) := by
  unfold pickBestMove
  rw [if_neg (not_isEmpty_of_ne hne)]
  rw [winCheck_spec ai (availableOf b) b (avail_all_none b), hf]

theorem pick_block (b : Board) (ai hu : Player) (diff : Difficulty) (rng : Rng) (m : Nat)
    (hne : availableOf b ≠ [])
    (hf1 : (availableOf b).find?
      (fun m => decide ((evaluateWinner (b.set m (some ai))).winner = some ai)) = none)
    (hf2 : (availableOf b).find?
      (fun m => decide ((evaluateWinner (b.set m (some hu))).winner = some hu)) = some m) :
    pickBestMove b ai hu diff rng = (some m, b) := by
  unfold pickBestMove
  rw [if_neg (not_isEmpty_of_ne hne)]
  rw [winCheck_spec ai (availableOf b) b (avail_all_none b), hf1]
  dsimp only
  rw [winCheck_spec hu (availableOf b) b (avail_all_none b), hf2]

theorem pick_mistake (b : Board) (ai hu : Player) (diff : Difficulty) (rng : Rng)
    (hne : availableOf b ≠ [])
    (hf1 : (availableOf b).find?
      (fun m => decide ((evaluateWinner (b.set m (some ai))).winner = some ai)) = none)
    (hf2 : (availableOf b).find?
      (fun m => decide ((evaluateWinner (b.set m (some hu))).winner = some hu)) = none)
    (hroll : rng.roll < mistakes diff) :
    pickBestMove b ai hu diff rng
      = (some ((availableOf b).getD
          (Int.toNat ⌊rng.pick * ((availableOf b).length : ℚ)⌋) 0), b) := by
  unfold pickBestMove
  rw [if_neg (not_isEmpty_of_ne hne)]
  rw [winCheck_spec ai (availableOf b) b (avail_all_none b), hf1]
  dsimp only
  rw [winCheck_spec hu (availableOf b) b (avail_all_none b), hf2]
  dsimp only
  rw [if_pos hroll]

theorem pick_search (b : Board) (ai hu : Player) (diff : Difficulty) (rng : Rng)
    (hne : availableOf b ≠ [])
    (hf1 : (availableOf b).find?
      (fun m => decide ((evaluateWinner (b.set m (some ai))).winner = some ai)) = none)
    (hf2 : (availableOf b).find?
      (fun m => decide ((evaluateWinner (b.set m (some hu))).winner = some hu)) = none)
    (hroll : ¬ rng.roll < mistakes diff) :
    pickBestMove b ai hu diff rng
      = (some (bestLoop (availableOf b) b ai hu (⊥, (availableOf b).headD 0)).1,
         (bestLoop (availableOf b) b ai hu (⊥, (availableOf b).headD 0)).2) := by
  unfold pickBestMove
  rw [if_neg (not_isEmpty_of_ne hne)]
  rw [winCheck_spec ai (availableOf b) b (avail_all_none b), hf1]
  dsimp only
  rw [winCheck_spec hu (availableOf b) b (avail_all_none b), hf2]
  dsimp only
  rw [if_neg hroll]

/-! ### Sign of the minimax value is independent of the starting depth -/

theorem nEmpty_pos_of_not_full (b : Board) (h : isFull b = false) : 0 < nEmpty b := by
  induction b with
  | nil => exact absurd h (by simp [isFull])
  | cons c t ih =>
    cases c with
    | none => simp [nEmpty, List.countP_cons]
    | some p =>
      have ht : isFull t = false := by
        simp only [isFull, List.all_cons, Option.isSome_some, Bool.true_and] at h
        exact h
      have := ih ht
      simp only [nEmpty, List.countP_cons] at this ⊢
      omega

theorem minimax_shift (n : Nat) : ∀ (b : Board) (d1 d2 : Nat) (mx : Bool) (ai hu : Player),
    nEmpty b = n → d1 + nEmpty b ≤ 9 → d2 + nEmpty b ≤ 9 →
    ((0 : JsInt) ≤ minimax b d1 mx ai hu ↔ (0 : JsInt) ≤ minimax b d2 mx ai hu) := by
  induction n using Nat.strong_induction_on with
  | _ n ih =>
    intro b d1 d2 mx ai hu hn h1 h2
    rw [minimax_eq b d1, minimax_eq b d2]
    by_cases hai : (evaluateWinner b).winner = some ai
    · rw [if_pos hai, if_pos hai, jsOfInt_nonneg_iff, jsOfInt_nonneg_iff]
      constructor <;> (intro; omega)
    · rw [if_neg hai, if_neg hai]
      by_cases hhu : (evaluateWinner b).winner = some hu
      · rw [if_pos hhu, if_pos hhu, jsOfInt_nonneg_iff, jsOfInt_nonneg_iff]
        constructor <;> (intro h; exfalso; omega)
      · rw [if_neg hhu, if_neg hhu]
        by_cases hfull : isFull b = true
        · rw [if_pos hfull, if_pos hfull]
        · rw [if_neg hfull, if_neg hfull]
          have hnf : isFull b = false := by
            cases hff : isFull b
            · rfl
            · exact absurd hff hfull
          have hpos : 0 < n := hn ▸ nEmpty_pos_of_not_full b hnf
          cases mx with
          | true =>
            show (0 : JsInt) ≤ jsMax _ ↔ (0 : JsInt) ≤ jsMax _
            rw [jsMax_nonneg_iff, jsMax_nonneg_iff]
            constructor
            · rintro ⟨x, hx, hx0⟩
              obtain ⟨i, hi, rfl⟩ := List.mem_map.mp hx
              obtain ⟨hlt, hnone⟩ := (avail_mem b i).mp hi
              have hset : nEmpty (b.set i (some (if true then ai else hu))) = n - 1 := by
                have := nEmpty_set b i (if true then ai else hu) hlt hnone
                omega
              refine ⟨minimax (b.set i (some (if true then ai else hu))) (d2 + 1) (!true) ai hu,
                List.mem_map_of_mem _ hi, ?_⟩
              exact (ih (n - 1) (by omega) _ (d1 + 1) (d2 + 1) (!true) ai hu hset
                (by omega) (by omega)).mp hx0
            · rintro ⟨x, hx, hx0⟩
              obtain ⟨i, hi, rfl⟩ := List.mem_map.mp hx
              obtain ⟨hlt, hnone⟩ := (avail_mem b i).mp hi
              have hset : nEmpty (b.set i (some (if true then ai else hu))) = n - 1 := by
                have := nEmpty_set b i (if true then ai else hu) hlt hnone
                omega
              refine ⟨minimax (b.set i (some (if true then ai else hu))) (d1 + 1) (!true) ai hu,
                List.mem_map_of_mem _ hi, ?_⟩
              exact (ih (n - 1) (by omega) _ (d1 + 1) (d2 + 1) (!true) ai hu hset
                (by omega) (by omega)).mpr hx0
          | false =>
            show (0 : JsInt) ≤ jsMin _ ↔ (0 : JsInt) ≤ jsMin _
            rw [jsMin_nonneg_iff, jsMin_nonneg_iff]
            constructor
            · intro hall x hx
              obtain ⟨i, hi, rfl⟩ := List.mem_map.mp hx
              obtain ⟨hlt, hnone⟩ := (avail_mem b i).mp hi
              have hset : nEmpty (b.set i (some (if false then ai else hu))) = n - 1 := by
                have := nEmpty_set b i (if false then ai else hu) hlt hnone
                omega
              exact (ih (n - 1) (by omega) _ (d1 + 1) (d2 + 1) (!false) ai hu hset
                (by omega) (by omega)).mp
                (hall _ (List.mem_map_of_mem _ hi))
            · intro hall x hx
              obtain ⟨i, hi, rfl⟩ := List.mem_map.mp hx
              obtain ⟨hlt, hnone⟩ := (avail_mem b i).mp hi
              have hset : nEmpty (b.set i (some (if false then ai else hu))) = n - 1 := by
                have := nEmpty_set b i (if false then ai else hu) hlt hnone
                omega
              exact (ih (n - 1) (by omega) _ (d1 + 1) (d2 + 1) (!false) ai hu hset
                (by omega) (by omega)).mpr
                (hall _ (List.mem_map_of_mem _ hi))

/-! ### A drawing-strategy certificate for the never-loses property

`stratMove` is a proof device, not part of the source: a rule-based
tic-tac-toe move (win, block, fork, counter-fork, centre, opposite corner,
corner, edge).  `checkS` checks exhaustively that following `stratMove`
against every legal opponent reply never ends in an opponent win; the
legality of each strategy move is checked inside `checkS` itself, so no
property of `stratMove` needs a proof.  The bridge lemma `checkS_minimax`
turns a successful check into a lower bound on the source's minimax value. -/

def trioOther (t : Nat × Nat × Nat) (m : Nat) : List Nat :=
  [t.1, t.2.1, t.2.2].filter (fun i => decide (i ≠ m))

def winAt (b : Board) (p : Player) (m : Nat) : Bool :=
  decide (cget b m = none) &&
  WINNING_TRIOS.any (fun t =>
    decide (m = t.1 ∨ m = t.2.1 ∨ m = t.2.2) &&
    (trioOther t m).all (fun i => decide (cget b i = some p)))

def mkFork (b : Board) (p : Player) (m : Nat) : Bool :=
  decide (cget b m = none) &&
  decide (2 ≤ (WINNING_TRIOS.filter (fun t =>
    decide (m = t.1 ∨ m = t.2.1 ∨ m = t.2.2) &&
    decide ((trioOther t m).countP (fun i => decide (cget b i = some p)) = 1) &&
    decide ((trioOther t m).countP (fun i => decide (cget b i = none)) = 1))).length)

def stratMove (b : Board) (ai human : Player) : Nat :=
  match (availableOf b).find? (winAt b ai) with
  | some m => m
  | none =>
  match (availableOf b).find? (winAt b human) with
  | some m => m
  | none =>
  match (availableOf b).find? (mkFork b ai) with
  | some m => m
  | none =>
  if (availableOf b).any (mkFork b human) then
    match (availableOf b).find? (fun m =>
      (availableOf (b.set m (some ai))).any (winAt (b.set m (some ai)) ai) &&
      (availableOf (b.set m (some ai))).all (fun t =>
        !(winAt (b.set m (some ai)) ai t) || !(mkFork (b.set m (some ai)) human t))) with
    | some m => m
    | none =>
      match (availableOf b).find? (mkFork b human) with
      | some m => m
      | none => (availableOf b).headD 0
  else
  if decide (cget b 4 = none) then 4
  else
  match ([(0, 8), (8, 0), (2, 6), (6, 2)].find? (fun pr =>
      decide (cget b pr.1 = some human) && decide (cget b pr.2 = none))) with
  | some pr => pr.2
  | none =>
  match ([0, 2, 6, 8].find? (fun i => decide (cget b i = none))) with
  | some m => m
  | none =>
  match ([1, 3, 5, 7].find? (fun i => decide (cget b i = none))) with
  | some m => m
  | none => (availableOf b).headD 0

def checkS (ai human : Player) : Nat → Board → Bool → Bool
  | fuel, b, aiTurn =>
    if (evaluateWinner b).winner = some human then false
    else if (evaluateWinner b).winner = none then
      if isFull b then true
      else match fuel with
        | 0 => false
        | Nat.succ fuel =>
          if aiTurn then
            decide (stratMove b ai human < b.length) &&
            decide (cget b (stratMove b ai human) = none) &&
            checkS ai human fuel (b.set (stratMove b ai human) (some ai)) false
          else
            (availableOf b).all (fun i => checkS ai human fuel (b.set i (some human)) true)
    else true

theorem player_eq_of_ne (w ai hu : Player) (h1 : w ≠ hu) (h2 : ai ≠ hu) : w = ai := by
  cases w <;> cases ai <;> cases hu <;> simp_all

theorem checkS_minimax (ai hu : Player) (hne : ai ≠ hu) :
    ∀ (fuel : Nat) (b : Board) (aiTurn : Bool) (d : Nat),
      checkS ai hu fuel b aiTurn = true → nEmpty b ≤ fuel → d + nEmpty b ≤ 9 →
      (0 : JsInt) ≤ minimax b d aiTurn ai hu := by
  intro fuel
  induction fuel with
  | zero =>
    intro b aiTurn d hC hfuel hd
    unfold checkS at hC
    cases hw : (evaluateWinner b).winner with
    | some w =>
      rw [hw] at hC
      have hwhu : w ≠ hu := by
        intro hh
        rw [if_pos (by rw [hh])] at hC
        exact Bool.noConfusion hC
      have hwai : w = ai := player_eq_of_ne w ai hu hwhu hne
      rw [minimax_eq, if_pos (by rw [hw, hwai]), jsOfInt_nonneg_iff]
      omega
    | none =>
      rw [hw] at hC
      rw [if_neg (by exact Option.noConfusion), if_pos rfl] at hC
      by_cases hfull : isFull b = true
      · rw [minimax_eq, if_neg (by rw [hw]; exact Option.noConfusion),
          if_neg (by rw [hw]; exact Option.noConfusion), if_pos hfull,
          jsOfInt_nonneg_iff]
      · rw [if_neg hfull] at hC
        exact Bool.noConfusion hC
  | succ fuel ihf =>
    intro b aiTurn d hC hfuel hd
    unfold checkS at hC
    cases hw : (evaluateWinner b).winner with
    | some w =>
      rw [hw] at hC
      have hwhu : w ≠ hu := by
        intro hh
        rw [if_pos (by rw [hh])] at hC
        exact Bool.noConfusion hC
      have hwai : w = ai := player_eq_of_ne w ai hu hwhu hne
      rw [minimax_eq, if_pos (by rw [hw, hwai]), jsOfInt_nonneg_iff]
      omega
    | none =>
      rw [hw] at hC
      rw [if_neg (by exact Option.noConfusion), if_pos rfl] at hC
      by_cases hfull : isFull b = true
      · rw [minimax_eq, if_neg (by rw [hw]; exact Option.noConfusion),
          if_neg (by rw [hw]; exact Option.noConfusion), if_pos hfull,
          jsOfInt_nonneg_iff]
      · rw [if_neg hfull] at hC
        have hnf : isFull b = false := by
          cases hff : isFull b
          · rfl
          · exact absurd hff hfull
        rw [minimax_eq, if_neg (by rw [hw]; exact Option.noConfusion),
          if_neg (by rw [hw]; exact Option.noConfusion), if_neg hfull]
        cases aiTurn with
        | true =>
          simp only [if_true, Bool.and_eq_true, decide_eq_true_eq] at hC
          obtain ⟨⟨hlen, hcell⟩, hrec⟩ := hC
          show (0 : JsInt) ≤ jsMax _
          rw [jsMax_nonneg_iff]
          have hmem : stratMove b ai hu ∈ availableOf b :=
            (avail_mem b _).mpr ⟨hlen, hcell⟩
          refine ⟨minimax (b.set (stratMove b ai hu) (some (if true then ai else hu)))
            (d + 1) (!true) ai hu, List.mem_map_of_mem _ hmem, ?_⟩
          have hcount := nEmpty_set b (stratMove b ai hu) ai hlen hcell
          exact ihf (b.set (stratMove b ai hu) (some ai)) false (d + 1) hrec
            (by omega) (by omega)
        | false =>
          simp only [Bool.false_eq_true, if_false, List.all_eq_true] at hC
          show (0 : JsInt) ≤ jsMin _
          rw [jsMin_nonneg_iff]
          intro x hx
          obtain ⟨i, hi, rfl⟩ := List.mem_map.mp hx
          obtain ⟨hlt, hnone⟩ := (avail_mem b i).mp hi
          have hcount := nEmpty_set b i hu hlt hnone
          exact ihf (b.set i (some hu)) true (d + 1)
            (hC i hi) (by omega) (by omega)

/-- Unfolding one step of a successful certificate at an `ai`-turn position
that is neither won nor full: the strategy move is a legal empty cell and the
certificate continues below it. -/
theorem checkS_step (ai hu : Player) (fuel : Nat) (b : Board)
    (hC : checkS ai hu (fuel + 1) b true = true)
    (hw : (evaluateWinner b).winner = none) (hnf : isFull b = false) :
    stratMove b ai hu < b.length ∧ cget b (stratMove b ai hu) = none ∧
    checkS ai hu fuel (b.set (stratMove b ai hu) (some ai)) false = true := by
  unfold checkS at hC
  rw [hw] at hC
  rw [if_neg (by exact Option.noConfusion), if_pos rfl,
    if_neg (by rw [hnf]; exact Bool.noConfusion)] at hC
  simp only [if_true, Bool.and_eq_true, decide_eq_true_eq] at hC
  exact ⟨hC.1.1, hC.1.2, hC.2⟩

/-! ### The never-loses invariant -/

/-- There is a candidate move whose resulting position (opponent to move,
searched from depth 0 exactly as `pickBestMove` does) has nonnegative
minimax score. -/
def Good (ai hu : Player) (b : Board) : Prop :=
  ∃ m ∈ availableOf b, (0 : JsInt) ≤ minimax (b.set m (some ai)) 0 false ai hu

/-- If blocking at `m2` is the tactical choice and the bot instead were to
play `m0 ≠ m2`, the opponent completes a line by answering at `m2`. -/
theorem blockLose (b : Board) (ai hu : Player) (m2 m0 : Nat)
    (hm2lt : m2 < b.length) (hm0none : cget b m0 = none) (hne2 : m0 ≠ m2)
    (hblock : (evaluateWinner (b.set m2 (some hu))).winner = some hu)
    (hw0 : (evaluateWinner (b.set m0 (some ai))).winner = none) :
    (evaluateWinner ((b.set m0 (some ai)).set m2 (some hu))).winner = some hu := by
  obtain ⟨T, -, hTmem, hTall, -⟩ := EW_some (b.set m2 (some hu)) hu hblock
  have hm0T : ∀ j, cget (b.set m2 (some hu)) j = some hu → m0 ≠ j := by
    intro j hj hh
    subst hh
    rw [cget_set_ne b m2 m0 _ (fun hh2 => hne2 hh2.symm), hm0none] at hj
    exact Option.noConfusion hj
  have hcell : ∀ j, cget (b.set m2 (some hu)) j = some hu →
      cget ((b.set m0 (some ai)).set m2 (some hu)) j = some hu := by
    intro j hj
    by_cases hjm : m2 = j
    · subst hjm
      rw [cget_set_self _ m2 _ (by rw [List.length_set]; exact hm2lt)]
    · rw [cget_set_ne _ m2 j _ hjm, cget_set_ne b m0 j _ (hm0T j hj)]
      rwa [cget_set_ne b m2 j _ hjm] at hj
  have hTall2 : trioAll ((b.set m0 (some ai)).set m2 (some hu)) T hu :=
    ⟨hcell T.1 hTall.1, hcell T.2.1 hTall.2.1, hcell T.2.2 hTall.2.2⟩
  cases hf2 : WINNING_TRIOS.find? (trioHit ((b.set m0 (some ai)).set m2 (some hu))) with
  | none =>
    exact absurd (trioAll_hit _ T hu hTall2) (List.find?_eq_none.mp hf2 T hTmem)
  | some T2 =>
    have hhit2 := List.find?_some hf2
    have hmem2 := List.mem_of_find?_eq_some hf2
    have hb1 : trioHit (b.set m0 (some ai)) T2 = false := (EW_none_iff _).mp hw0 T2 hmem2
    have hall2 := hit_set_cases (b.set m0 (some ai)) m2 hu T2 hb1 hhit2
    unfold evaluateWinner
    rw [hf2]
    exact hall2.1

/-- With difficulty `perfect` and a valid draw, the chosen move of
`pickBestMove` on a lineless position with a nonnegative-value candidate
either wins on the spot or keeps the minimax value nonnegative. -/
theorem perfect_move_value (b : Board) (ai hu : Player) (rng : Rng) (m : Nat)
    (hne : ai ≠ hu) (hrng : rng.Valid) (hL : (evaluateWinner b).winner = none)
    (hG : Good ai hu b)
    (hm : (pickBestMove b ai hu Difficulty.perfect rng).1 = some m) :
    (evaluateWinner (b.set m (some ai))).winner = some ai ∨
    ((evaluateWinner (b.set m (some ai))).winner = none ∧
      (0 : JsInt) ≤ minimax (b.set m (some ai)) 0 false ai hu) := by
  have havail : availableOf b ≠ [] := by
    intro hav
    rw [pick_nil b ai hu Difficulty.perfect rng hav] at hm
    exact Option.noConfusion hm
  cases hf1 : (availableOf b).find?
      (fun m => decide ((evaluateWinner (b.set m (some ai))).winner = some ai)) with
  | some m1 =>
    rw [pick_win b ai hu Difficulty.perfect rng m1 havail hf1] at hm
    have hm1 : m1 = m := Option.some.inj hm
    left
    have hp := List.find?_some hf1
    exact hm1 ▸ of_decide_eq_true hp
  | none =>
    have hnoai : ∀ x ∈ availableOf b, (evaluateWinner (b.set x (some ai))).winner ≠ some ai := by
      intro x hx
      have hh := List.find?_eq_none.mp hf1 x hx
      simpa using hh
    cases hf2 : (availableOf b).find?
        (fun m => decide ((evaluateWinner (b.set m (some hu))).winner = some hu)) with
    | some m2 =>
      rw [pick_block b ai hu Difficulty.perfect rng m2 havail hf1 hf2] at hm
      have hm2 : m2 = m := Option.some.inj hm
      subst hm2
      have hm2mem := List.mem_of_find?_eq_some hf2
      obtain ⟨hm2lt, hm2none⟩ := (avail_mem b m2).mp hm2mem
      have hblock : (evaluateWinner (b.set m2 (some hu))).winner = some hu := by
        have hp := List.find?_some hf2
        exact of_decide_eq_true hp
      have hwnone : (evaluateWinner (b.set m2 (some ai))).winner = none := by
        rcases winner_set_cases b m2 ai hL with h | h
        · exact h
        · exact absurd h (hnoai m2 hm2mem)
      right
      refine ⟨hwnone, ?_⟩
      obtain ⟨m0, hm0mem, hm0val⟩ := hG
      by_cases heq : m0 = m2
      · exact heq ▸ hm0val
      · exfalso
        obtain ⟨hm0lt, hm0none⟩ := (avail_mem b m0).mp hm0mem
        have hw0 : (evaluateWinner (b.set m0 (some ai))).winner = none := by
          rcases winner_set_cases b m0 ai hL with h | h
          · exact h
          · exact absurd h (hnoai m0 hm0mem)
        have hlose := blockLose b ai hu m2 m0 hm2lt hm0none heq hblock hw0
        have hmem1 : m2 ∈ availableOf (b.set m0 (some ai)) :=
          (avail_mem _ m2).mpr ⟨by rw [List.length_set]; exact hm2lt,
            by rw [cget_set_ne b m0 m2 _ heq]; exact hm2none⟩
        have hval2 : minimax ((b.set m0 (some ai)).set m2 (some hu)) 1 true ai hu
            = jsOfInt ((1 : Int) - 10) := by
          rw [minimax_eq, if_neg (by
            rw [hlose]
            intro hh
            exact hne (Option.some.inj hh).symm), if_pos hlose]
          norm_num
        have hnotfull0 : ¬ isFull (b.set m0 (some ai)) = true := by
          rw [isFull_false_of_empty_cell (b.set m0 (some ai)) m2
            (by rw [List.length_set]; exact hm2lt)
            (by rw [cget_set_ne b m0 m2 _ heq]; exact hm2none)]
          exact Bool.noConfusion
        have hminle : minimax (b.set m0 (some ai)) 0 false ai hu ≤ jsOfInt ((1 : Int) - 10) := by
          rw [minimax_eq, if_neg (by rw [hw0]; exact Option.noConfusion),
            if_neg (by rw [hw0]; exact Option.noConfusion), if_neg hnotfull0]
          have hml := jsMin_le_of_mem _ _ (List.mem_map_of_mem
            (fun i => minimax ((b.set m0 (some ai)).set i
              (some (if false then ai else hu))) (0 + 1) (!false) ai hu) hmem1)
          have hx : minimax ((b.set m0 (some ai)).set m2
              (some (if false then ai else hu))) (0 + 1) (!false) ai hu
              = jsOfInt ((1 : Int) - 10) := hval2
          dsimp only at hml
          rw [hx] at hml
          exact hml
        have := le_trans hm0val hminle
        rw [jsOfInt_nonneg_iff] at this
        omega
    | none =>
      have hroll : ¬ rng.roll < mistakes Difficulty.perfect := by
        rw [show mistakes Difficulty.perfect = 0 from rfl]
        exact not_lt.mpr hrng.1
      rw [pick_search b ai hu Difficulty.perfect rng havail hf1 hf2 hroll] at hm
      have hchosen : (bestLoop (availableOf b) b ai hu (⊥, (availableOf b).headD 0)).1 = m :=
        Option.some.inj hm
      obtain ⟨hcm, hmax⟩ := bestLoop_argmax ai hu b havail
      rw [hchosen] at hcm hmax
      have hwn : (evaluateWinner (b.set m (some ai))).winner = none := by
        rcases winner_set_cases b m ai hL with h | h
        · exact h
        · exact absurd h (hnoai m hcm)
      right
      obtain ⟨m0, hm0mem, hm0val⟩ := hG
      exact ⟨hwn, le_trans hm0val (hmax m0 hm0mem)⟩

/-- Any legal opponent reply from a nonnegative position neither completes an
opponent line nor destroys the existence of a nonnegative bot answer. -/
theorem human_move_value (b : Board) (ai hu : Player) (c : Nat)
    (hne : ai ≠ hu) (hL : (evaluateWinner b).winner = none)
    (hv : (0 : JsInt) ≤ minimax b 0 false ai hu)
    (hclt : c < b.length) (hc : cget b c = none) (hlen : b.length = 9) :
    (evaluateWinner (b.set c (some hu))).winner = none ∧
    (isFull (b.set c (some hu)) = false → Good ai hu (b.set c (some hu))) := by
  have hnotfull : isFull b = false := isFull_false_of_empty_cell b c hclt hc
  have hstep : (0 : JsInt) ≤ minimax (b.set c (some hu)) 1 true ai hu := by
    rw [minimax_eq, if_neg (by rw [hL]; exact Option.noConfusion),
      if_neg (by rw [hL]; exact Option.noConfusion),
      if_neg (by rw [hnotfull]; exact Bool.noConfusion)] at hv
    have hv2 : (0 : JsInt) ≤ jsMin ((availableOf b).map (fun i =>
      minimax (b.set i (some (if false then ai else hu))) (0 + 1) (!false) ai hu)) := hv
    rw [jsMin_nonneg_iff] at hv2
    exact hv2 _ (List.mem_map_of_mem _ ((avail_mem b c).mpr ⟨hclt, hc⟩))
  have hwn : (evaluateWinner (b.set c (some hu))).winner = none := by
    rcases winner_set_cases b c hu hL with h | h
    · exact h
    · exfalso
      rw [minimax_eq, if_neg (by
          rw [h]
          intro hh
          exact hne (Option.some.inj hh).symm), if_pos h, jsOfInt_nonneg_iff] at hstep
      omega
  refine ⟨hwn, ?_⟩
  intro hnf2
  rw [minimax_eq, if_neg (by rw [hwn]; exact Option.noConfusion),
    if_neg (by rw [hwn]; exact Option.noConfusion),
    if_neg (by rw [hnf2]; exact Bool.noConfusion)] at hstep
  have hstep2 : (0 : JsInt) ≤ jsMax ((availableOf (b.set c (some hu))).map (fun i =>
    minimax ((b.set c (some hu)).set i (some (if true then ai else hu)))
      (1 + 1) (!true) ai hu)) := hstep
  rw [jsMax_nonneg_iff] at hstep2
  obtain ⟨x, hx, hx0⟩ := hstep2
  obtain ⟨i, hi, rfl⟩ := List.mem_map.mp hx
  obtain ⟨hilt, hinone⟩ := (avail_mem _ i).mp hi
  refine ⟨i, hi, ?_⟩
  have h1 : nEmpty (b.set c (some hu)) + 1 = nEmpty b := nEmpty_set b c hu hclt hc
  have h2 : nEmpty ((b.set c (some hu)).set i (some ai)) + 1 = nEmpty (b.set c (some hu)) :=
    nEmpty_set _ i ai hilt hinone
  have hb9 : nEmpty b ≤ 9 := hlen ▸ nEmpty_le_length b
  have hsh := minimax_shift (nEmpty ((b.set c (some hu)).set i (some ai)))
    ((b.set c (some hu)).set i (some ai)) 2 0 false ai hu rfl (by omega) (by omega)
  exact hsh.mp hx0

/-- Game positions reachable from the empty board when the automated player
(mark `ai`) chooses its moves with `pickBestMove` at difficulty `perfect`
(under any valid random draws) and the opponent (mark `hu`) plays arbitrary
legal replies.  The flag records whose turn it is (`true` = automated
player).  Play stops at a completed line, so both step constructors require
a winnerless position, exactly as the orchestrator does. -/
inductive Reach (ai hu : Player) : Board → Bool → Prop where
  | startBot : Reach ai hu (List.replicate 9 none) true
  | startHuman : Reach ai hu (List.replicate 9 none) false
  | botMove {b : Board} {m : Nat} (rng : Rng) :
      Reach ai hu b true → rng.Valid → (evaluateWinner b).winner = none →
      (pickBestMove b ai hu Difficulty.perfect rng).1 = some m →
      Reach ai hu (b.set m (some ai)) false
  | humanMove {b : Board} {c : Nat} :
      Reach ai hu b false → (evaluateWinner b).winner = none →
      c < 9 → cget b c = none →
      Reach ai hu (b.set c (some hu)) true

theorem reach_inv (ai hu : Player) (hne : ai ≠ hu)
    (hc1 : checkS ai hu 9 (List.replicate 9 none) true = true)
    (hc2 : checkS ai hu 9 (List.replicate 9 none) false = true) :
    ∀ (b : Board) (t : Bool), Reach ai hu b t → b.length = 9 ∧
      (t = true → (evaluateWinner b).winner ≠ some hu ∧
        ((evaluateWinner b).winner = none → isFull b = false → Good ai hu b)) ∧
      (t = false → (evaluateWinner b).winner = some ai ∨
        ((evaluateWinner b).winner = none ∧ (0 : JsInt) ≤ minimax b 0 false ai hu)) := by
  intro b t hr
  induction hr with
  | startBot =>
    refine ⟨by simp, ?_, ?_⟩
    · intro _
      constructor
      · have hwe : (evaluateWinner (List.replicate 9 (none : Cell))).winner = none := by decide
        rw [hwe]
        exact Option.noConfusion
      · intro hw hnf
        obtain ⟨hlt, hcell, hrec⟩ := checkS_step ai hu 8 (List.replicate 9 none) hc1 hw hnf
        refine ⟨stratMove (List.replicate 9 none) ai hu,
          (avail_mem _ _).mpr ⟨hlt, hcell⟩, ?_⟩
        have hcount := nEmpty_set (List.replicate 9 none)
          (stratMove (List.replicate 9 none) ai hu) ai hlt hcell
        have hn9 : nEmpty (List.replicate 9 (none : Cell)) = 9 := by decide
        exact checkS_minimax ai hu hne 8 _ false 0 hrec (by omega) (by omega)
    · intro hf
      exact Bool.noConfusion hf
  | startHuman =>
    refine ⟨by simp, ?_, ?_⟩
    · intro h
      exact Bool.noConfusion h
    · intro _
      right
      refine ⟨by decide, ?_⟩
      have hn9 : nEmpty (List.replicate 9 (none : Cell)) = 9 := by decide
      exact checkS_minimax ai hu hne 9 _ false 0 hc2 (by omega) (by omega)
  | @botMove b0 m rng hrec hv hw hp ih =>
    obtain ⟨hlen, hT, -⟩ := ih
    obtain ⟨-, hGood⟩ := hT rfl
    refine ⟨by rw [List.length_set]; exact hlen, ?_, ?_⟩
    · intro h
      exact Bool.noConfusion h
    · intro _
      by_cases hnf : isFull b0 = false
      · exact perfect_move_value b0 ai hu rng m hne hv hw (hGood hw hnf) hp
      · have hfull : isFull b0 = true := by
          cases hff : isFull b0
          · exact absurd hff hnf
          · rfl
        have havail : availableOf b0 = [] := (avail_nil_iff b0).mpr hfull
        rw [pick_nil b0 ai hu Difficulty.perfect rng havail] at hp
        exact Option.noConfusion hp
  | @humanMove b0 c hrec hw hclt hcell ih =>
    obtain ⟨hlen, -, hF⟩ := ih
    rcases hF rfl with hai | ⟨-, hval⟩
    · rw [hai] at hw
      exact Option.noConfusion hw
    · have hmv := human_move_value b0 ai hu c hne hw hval (by omega) hcell hlen
      refine ⟨by rw [List.length_set]; exact hlen, ?_, ?_⟩
      · intro _
        refine ⟨by rw [hmv.1]; exact Option.noConfusion, ?_⟩
        intro _ hnf2
        exact hmv.2 hnf2
      · intro h
        exact Bool.noConfusion h

/-! ### Exhaustive strategy certificates (kernel-checked) -/

set_option maxHeartbeats 4000000 in
theorem certXO_bot : checkS Player.X Player.O 9 (List.replicate 9 none) true = true := by
  decide

set_option maxHeartbeats 4000000 in
theorem certXO_human : checkS Player.X Player.O 9 (List.replicate 9 none) false = true := by
  decide

set_option maxHeartbeats 4000000 in
theorem certOX_bot : checkS Player.O Player.X 9 (List.replicate 9 none) true = true := by
  decide

set_option maxHeartbeats 4000000 in
theorem certOX_human : checkS Player.O Player.X 9 (List.replicate 9 none) false = true := by
  decide

theorem reach_never_loses (ai hu : Player) (hne : ai ≠ hu) (b : Board) (t : Bool)
    (hr : Reach ai hu b t) : (evaluateWinner b).winner ≠ some hu := by
  have hcs : checkS ai hu 9 (List.replicate 9 none) true = true ∧
      checkS ai hu 9 (List.replicate 9 none) false = true := by
    cases ai <;> cases hu
    · exact absurd rfl hne
    · exact ⟨certXO_bot, certXO_human⟩
    · exact ⟨certOX_bot, certOX_human⟩
    · exact absurd rfl hne
  have hinv := reach_inv ai hu hne hcs.1 hcs.2 b t hr
  cases t with
  | false =>
    rcases hinv.2.2 rfl with hai | ⟨hwn, -⟩
    · rw [hai]
      intro hh
      exact hne (Option.some.inj hh)
    · rw [hwn]
      exact Option.noConfusion
  | true => exact (hinv.2.1 rfl).1

/-! ### Claim theorems -/

/-- A full board with no completed line, used as the tie counterexample. -/
def bFullTie : Board :=
  [some Player.X, some Player.X, some Player.O,
   some Player.O, some Player.O, some Player.X,
   some Player.X, some Player.O, some Player.X]

/-- A board on which `X` (two in the top row) wins immediately at index 2. -/
def bWinX : Board :=
  [some Player.X, some Player.X, none,
   some Player.O, some Player.O, none,
   none, none, none]

/-- A board on which `X` has no immediate win and `O` (two in the top row)
must be blocked at index 2. -/
def bBlockO : Board :=
  [some Player.O, some Player.O, none,
   some Player.X, none, none,
   none, none, none]

/-- C1, counterexample: on a full board with no winning line `evaluateWinner`
returns winner `none`, line `none` — the very same value it returns for the
(non-full) empty board, so the claimed distinct "tie" result does not exist
at this interface. -/
theorem claim1_counterexample :
    evaluateWinner bFullTie = evaluateWinner (List.replicate 9 none) ∧
    (evaluateWinner bFullTie).winner = none ∧
    isFull bFullTie = true ∧ isFull (List.replicate 9 (none : Cell)) = false := by
  decide

/-- C1, amended: for every full board with no completed line the evaluator
returns `{winner := none, line := none}` — identical to its result on
non-full lineless boards — and it is the caller (`makeMove`, embedded as
`roundOutcome`) that combines this with the fullness check to produce the
tie outcome with no line. -/
theorem claim1_amended (b : Board) (hfull : isFull b = true)
    (hlineless : ∀ t ∈ WINNING_TRIOS, trioHit b t = false) :
    evaluateWinner b = ⟨none, none⟩ ∧ roundOutcome b = (Outcome.tie, none) := by
  have hev : evaluateWinner b = ⟨none, none⟩ := by
    cases hf : WINNING_TRIOS.find? (trioHit b) with
    | none =>
      unfold evaluateWinner
      rw [hf]
    | some t =>
      have hhit := List.find?_some hf
      rw [hlineless t (List.mem_of_find?_eq_some hf)] at hhit
      exact Bool.noConfusion hhit
  have hw : (evaluateWinner b).winner = none := by rw [hev]
  refine ⟨hev, ?_⟩
  unfold roundOutcome
  rw [hw]
  dsimp only
  rw [if_pos hfull]

theorem claim1_amended_witness :
    isFull bFullTie = true ∧ (∀ t ∈ WINNING_TRIOS, trioHit bFullTie t = false) ∧
    (evaluateWinner bFullTie = ⟨none, none⟩ ∧ roundOutcome bFullTie = (Outcome.tie, none)) :=
  ⟨by decide, by decide, claim1_amended bFullTie (by decide) (by decide)⟩

/-- C2: whenever some empty cell completes an immediate win for the
automated mark (as reported by the evaluator), `pickBestMove` returns the
least such cell, for every difficulty and every random draw, without the
block check, mistake draw or search influencing the result. -/
theorem claim2 (b : Board) (ai hu : Player) (diff : Difficulty) (rng : Rng) (m : Nat)
    (_hne : ai ≠ hu) (hmem : m ∈ availableOf b)
    (hwin : (evaluateWinner (b.set m (some ai))).winner = some ai)
    (hleast : ∀ k ∈ availableOf b, k < m →
      (evaluateWinner (b.set k (some ai))).winner ≠ some ai) :
    (pickBestMove b ai hu diff rng).1 = some m := by
  have havail : availableOf b ≠ [] := by
    intro h
    rw [h] at hmem
    exact List.not_mem_nil m hmem
  have hf : (availableOf b).find?
      (fun k => decide ((evaluateWinner (b.set k (some ai))).winner = some ai)) = some m :=
    find?_first_lt (availableOf b) (avail_pairwise b) m hmem (decide_eq_true hwin)
      (fun k hk hkm => decide_eq_false (hleast k hk hkm))
  rw [pick_win b ai hu diff rng m havail hf]

theorem claim2_witness :
    (Player.X ≠ Player.O) ∧ 2 ∈ availableOf bWinX ∧
    (evaluateWinner (bWinX.set 2 (some Player.X))).winner = some Player.X ∧
    (∀ k ∈ availableOf bWinX, k < 2 →
      (evaluateWinner (bWinX.set k (some Player.X))).winner ≠ some Player.X) ∧
    (pickBestMove bWinX Player.X Player.O Difficulty.balanced ⟨1/2, 1/3⟩).1 = some 2 :=
  ⟨by decide, by decide, by decide, by decide,
    claim2 bWinX Player.X Player.O Difficulty.balanced ⟨1/2, 1/3⟩ 2
      (by decide) (by decide) (by decide) (by decide)⟩

/-- C3: when no empty cell gives the automated mark an immediate win but some
empty cell would complete a line for the opponent, `pickBestMove` returns the
least such blocking cell, for every difficulty and random draw. -/
theorem claim3 (b : Board) (ai hu : Player) (diff : Difficulty) (rng : Rng) (m : Nat)
    (_hne : ai ≠ hu) (hmem : m ∈ availableOf b)
    (hnowin : ∀ k ∈ availableOf b, (evaluateWinner (b.set k (some ai))).winner ≠ some ai)
    (hblock : (evaluateWinner (b.set m (some hu))).winner = some hu)
    (hleast : ∀ k ∈ availableOf b, k < m →
      (evaluateWinner (b.set k (some hu))).winner ≠ some hu) :
    (pickBestMove b ai hu diff rng).1 = some m := by
  have havail : availableOf b ≠ [] := by
    intro h
    rw [h] at hmem
    exact List.not_mem_nil m hmem
  have hf1 : (availableOf b).find?
      (fun k => decide ((evaluateWinner (b.set k (some ai))).winner = some ai)) = none :=
    List.find?_eq_none.mpr (fun k hk => by
      simp only [decide_eq_true_eq]
      exact hnowin k hk)
  have hf2 : (availableOf b).find?
      (fun k => decide ((evaluateWinner (b.set k (some hu))).winner = some hu)) = some m :=
    find?_first_lt (availableOf b) (avail_pairwise b) m hmem (decide_eq_true hblock)
      (fun k hk hkm => decide_eq_false (hleast k hk hkm))
  rw [pick_block b ai hu diff rng m havail hf1 hf2]

theorem claim3_witness :
    (Player.X ≠ Player.O) ∧ 2 ∈ availableOf bBlockO ∧
    (∀ k ∈ availableOf bBlockO,
      (evaluateWinner (bBlockO.set k (some Player.X))).winner ≠ some Player.X) ∧
    (evaluateWinner (bBlockO.set 2 (some Player.O))).winner = some Player.O ∧
    (∀ k ∈ availableOf bBlockO, k < 2 →
      (evaluateWinner (bBlockO.set k (some Player.O))).winner ≠ some Player.O) ∧
    (pickBestMove bBlockO Player.X Player.O Difficulty.relaxed ⟨3/4, 1/4⟩).1 = some 2 :=
  ⟨by decide, by decide, by decide, by decide, by decide,
    claim3 bBlockO Player.X Player.O Difficulty.relaxed ⟨3/4, 1/4⟩ 2
      (by decide) (by decide) (by decide) (by decide) (by decide)⟩

theorem getD_mem : ∀ (l : List Nat) (idx d : Nat), idx < l.length → l.getD idx d ∈ l := by
  intro l
  induction l with
  | nil => intro idx d h; simp at h
  | cons a t ih =>
    intro idx d h
    cases idx with
    | zero => exact List.mem_cons_self a t
    | succ j => exact List.mem_cons_of_mem a (ih j d (by simpa using h))

/-- Every branch of `pickBestMove` on a board with an empty cell returns a
member of the available list. -/
theorem pick_some_mem (b : Board) (ai hu : Player) (diff : Difficulty) (rng : Rng)
    (hrng : rng.Valid) (hav : availableOf b ≠ []) :
    ∃ m, (pickBestMove b ai hu diff rng).1 = some m ∧ m ∈ availableOf b := by
  cases hf1 : (availableOf b).find?
      (fun k => decide ((evaluateWinner (b.set k (some ai))).winner = some ai)) with
  | some m1 =>
    exact ⟨m1, by rw [pick_win b ai hu diff rng m1 hav hf1],
      List.mem_of_find?_eq_some hf1⟩
  | none =>
    cases hf2 : (availableOf b).find?
        (fun k => decide ((evaluateWinner (b.set k (some hu))).winner = some hu)) with
    | some m2 =>
      exact ⟨m2, by rw [pick_block b ai hu diff rng m2 hav hf1 hf2],
        List.mem_of_find?_eq_some hf2⟩
    | none =>
      by_cases hroll : rng.roll < mistakes diff
      · refine ⟨(availableOf b).getD
          (Int.toNat ⌊rng.pick * ((availableOf b).length : ℚ)⌋) 0,
          by rw [pick_mistake b ai hu diff rng hav hf1 hf2 hroll], ?_⟩
        have hlen0 : 0 < (availableOf b).length := List.length_pos.mpr hav
        have hq0 : (0 : ℚ) ≤ rng.pick * ((availableOf b).length : ℚ) :=
          mul_nonneg hrng.2.2.1 (by positivity)
        have hqlt : rng.pick * ((availableOf b).length : ℚ)
            < ((availableOf b).length : ℚ) := by
          have h1 := hrng.2.2.2
          have h2 : (0 : ℚ) < ((availableOf b).length : ℚ) := by exact_mod_cast hlen0
          calc rng.pick * ((availableOf b).length : ℚ)
              < 1 * ((availableOf b).length : ℚ) := by
                exact mul_lt_mul_of_pos_right h1 h2
            _ = ((availableOf b).length : ℚ) := one_mul _
        have hfl : ⌊rng.pick * ((availableOf b).length : ℚ)⌋
            < ((availableOf b).length : ℤ) := by
          rw [Int.floor_lt]
          exact_mod_cast hqlt
        have hfl0 : 0 ≤ ⌊rng.pick * ((availableOf b).length : ℚ)⌋ :=
          Int.floor_nonneg.mpr hq0
        exact getD_mem _ _ 0 (by omega)
      · refine ⟨(bestLoop (availableOf b) b ai hu (⊥, (availableOf b).headD 0)).1,
          by rw [pick_search b ai hu diff rng hav hf1 hf2 hroll], ?_⟩
        exact (bestLoop_argmax ai hu b hav).1

/-- C4: `pickBestMove` returns `none` exactly on a full board, and any index
it returns lies in `0–8` and addresses an empty cell of the input board. -/
theorem claim4 (b : Board) (ai hu : Player) (diff : Difficulty) (rng : Rng)
    (_hne : ai ≠ hu) (hlen : b.length = 9) (hrng : rng.Valid) :
    ((pickBestMove b ai hu diff rng).1 = none ↔ isFull b = true) ∧
    (∀ m, (pickBestMove b ai hu diff rng).1 = some m → m < 9 ∧ cget b m = none) := by
  by_cases hav : availableOf b = []
  · rw [pick_nil b ai hu diff rng hav]
    refine ⟨⟨fun _ => (avail_nil_iff b).mp hav, fun _ => rfl⟩, ?_⟩
    intro m hm
    exact Option.noConfusion hm
  · obtain ⟨m0, hp, hmem⟩ := pick_some_mem b ai hu diff rng hrng hav
    constructor
    · constructor
      · intro h
        rw [hp] at h
        exact Option.noConfusion h
      · intro hfl
        exact absurd ((avail_nil_iff b).mpr hfl) hav
    · intro m hm
      rw [hp] at hm
      have hmm : m0 = m := Option.some.inj hm
      subst hmm
      obtain ⟨hlt, hcell⟩ := (avail_mem b m0).mp hmem
      exact ⟨by omega, hcell⟩

theorem claim4_witness :
    (Player.X ≠ Player.O) ∧ (bWinX.length = 9) ∧ (Rng.Valid ⟨1/5, 9/10⟩) ∧
    (((pickBestMove bWinX Player.X Player.O Difficulty.relaxed ⟨1/5, 9/10⟩).1 = none
        ↔ isFull bWinX = true) ∧
      (∀ m, (pickBestMove bWinX Player.X Player.O Difficulty.relaxed ⟨1/5, 9/10⟩).1 = some m →
        m < 9 ∧ cget bWinX m = none)) :=
  ⟨by decide, by decide, ⟨by norm_num, by norm_num, by norm_num, by norm_num⟩,
    claim4 bWinX Player.X Player.O Difficulty.relaxed ⟨1/5, 9/10⟩
      (by decide) (by decide) ⟨by norm_num, by norm_num, by norm_num, by norm_num⟩⟩

/-- C5: the minimax scoring function satisfies exactly the recursion of the
source — `10 - depth` on an `aiMark` win, `depth - 10` on a `humanMark` win,
`0` on a full winnerless board, and otherwise the maximum (maximising) or
minimum (minimising) over the empty cells of the recursive score at
`depth + 1` with the flag flipped and the mark-to-move placed. -/
theorem claim5 (b : Board) (depth : Nat) (isMax : Bool) (ai hu : Player)
    (_hne : ai ≠ hu) :
    minimax b depth isMax ai hu =
      if (evaluateWinner b).winner = some ai then jsOfInt (10 - (depth : Int))
      else if (evaluateWinner b).winner = some hu then jsOfInt ((depth : Int) - 10)
      else if isFull b then jsOfInt 0
      else (if isMax then jsMax else jsMin)
        ((availableOf b).map (fun i =>
          minimax (b.set i (some (if isMax then ai else hu))) (depth + 1) (!isMax) ai hu)) :=
  minimax_eq b depth isMax ai hu

theorem claim5_witness :
    (Player.O ≠ Player.X) ∧
    minimax bWinX 1 false Player.O Player.X =
      (if (evaluateWinner bWinX).winner = some Player.O then jsOfInt (10 - ((1 : Nat) : Int))
      else if (evaluateWinner bWinX).winner = some Player.X then jsOfInt (((1 : Nat) : Int) - 10)
      else if isFull bWinX then jsOfInt 0
      else (if false then jsMax else jsMin)
        ((availableOf bWinX).map (fun i =>
          minimax (bWinX.set i (some (if false then Player.O else Player.X)))
            (1 + 1) (!false) Player.O Player.X))) :=
  ⟨by decide, claim5 bWinX 1 false Player.O Player.X (by decide)⟩

theorem find?_eq_of_get? {α : Type} {p : α → Bool} :
    ∀ (l : List α) (i : Nat) (a : α), l.get? i = some a → p a = true →
      (∀ j b, j < i → l.get? j = some b → p b = false) → l.find? p = some a := by
  intro l
  induction l with
  | nil => intro i a hget; exact fun _ _ => Option.noConfusion hget
  | cons x rest ih =>
    intro i a hget hpa hmin
    cases i with
    | zero =>
      have hxa : x = a := Option.some.inj hget
      subst hxa
      simp [List.find?_cons, hpa]
    | succ j =>
      have hpx : p x = false := hmin 0 x (Nat.succ_pos j) rfl
      simp only [List.find?_cons, hpx]
      exact ih j a hget hpa (fun k bb hk hgk => hmin (k + 1) bb (by omega) hgk)

/-- C6: the trio table enumerates rows top-to-bottom, then columns
left-to-right, then the two diagonals; and on any board, the completed trio
earliest in that order is the one `evaluateWinner` reports, together with
its mark as winner. -/
theorem claim6 :
    WINNING_TRIOS = [(0, 1, 2), (3, 4, 5), (6, 7, 8), (0, 3, 6), (1, 4, 7),
      (2, 5, 8), (0, 4, 8), (2, 4, 6)] ∧
    ∀ (b : Board) (i : Nat) (t : Nat × Nat × Nat) (p : Player),
      WINNING_TRIOS.get? i = some t → trioAll b t p →
      (∀ j t2, j < i → WINNING_TRIOS.get? j = some t2 → ∀ q, ¬ trioAll b t2 q) →
      evaluateWinner b = ⟨some p, some t⟩ := by
  refine ⟨rfl, ?_⟩
  intro b i t p hget hall hmin
  have hf : WINNING_TRIOS.find? (trioHit b) = some t := by
    refine find?_eq_of_get? WINNING_TRIOS i t hget (trioAll_hit b t p hall) ?_
    intro j t2 hj hgj
    cases hhit : trioHit b t2 with
    | false => rfl
    | true =>
      obtain ⟨q, hq⟩ := (trioHit_iff b t2).mp hhit
      exact absurd hq (hmin j t2 hj hgj q)
  unfold evaluateWinner
  rw [hf]
  show EvalResult.mk (cget b t.1) (some t) = EvalResult.mk (some p) (some t)
  rw [hall.1]

def bMidRow : Board :=
  [some Player.O, none, none,
   some Player.X, some Player.X, some Player.X,
   none, none, some Player.O]

theorem claim6_witness :
    WINNING_TRIOS.get? 1 = some (3, 4, 5) ∧ trioAll bMidRow (3, 4, 5) Player.X ∧
    (∀ j t2, j < 1 → WINNING_TRIOS.get? j = some t2 → ∀ q, ¬ trioAll bMidRow t2 q) ∧
    evaluateWinner bMidRow = ⟨some Player.X, some (3, 4, 5)⟩ := by
  have hmin : ∀ j t2, j < 1 → WINNING_TRIOS.get? j = some t2 →
      ∀ q, ¬ trioAll bMidRow t2 q := by
    intro j t2 hj hg q
    have hj0 : j = 0 := by omega
    subst hj0
    have ht2 : ((0 : Nat), (1 : Nat), (2 : Nat)) = t2 := Option.some.inj hg
    rw [← ht2]
    cases q <;> decide
  exact ⟨by decide, by decide, hmin,
    claim6.2 bMidRow 1 (3, 4, 5) Player.X (by decide) (by decide) hmin⟩

theorem pick_frame (b : Board) (ai hu : Player) (diff : Difficulty) (rng : Rng) :
    (pickBestMove b ai hu diff rng).2 = b := by
  by_cases hav : availableOf b = []
  · rw [pick_nil b ai hu diff rng hav]
  · cases hf1 : (availableOf b).find?
        (fun k => decide ((evaluateWinner (b.set k (some ai))).winner = some ai)) with
    | some m1 => rw [pick_win b ai hu diff rng m1 hav hf1]
    | none =>
      cases hf2 : (availableOf b).find?
          (fun k => decide ((evaluateWinner (b.set k (some hu))).winner = some hu)) with
      | some m2 => rw [pick_block b ai hu diff rng m2 hav hf1 hf2]
      | none =>
        by_cases hroll : rng.roll < mistakes diff
        · rw [pick_mistake b ai hu diff rng hav hf1 hf2 hroll]
        · rw [pick_search b ai hu diff rng hav hf1 hf2 hroll]
          exact bestLoop_frame ai hu (availableOf b) b _ (avail_all_none b)

/-- C7: both the search and the move selector hand the caller-supplied board
back exactly as received — every hypothetical placement made by the win
check, the block check and the minimax recursion is undone on return.  The
second component of each embedded function is the final state of the
caller's board. -/
theorem claim7 :
    (∀ (fuel : Nat) (b : Board) (depth : Nat) (isMax : Bool) (ai hu : Player),
      (minimaxF fuel b depth isMax ai hu).2 = b) ∧
    (∀ (b : Board) (ai hu : Player) (diff : Difficulty) (rng : Rng),
      (pickBestMove b ai hu diff rng).2 = b) :=
  ⟨fun fuel b depth isMax ai hu => minimaxF_frame fuel b depth isMax ai hu,
   fun b ai hu diff rng => pick_frame b ai hu diff rng⟩

/-- C8: the `perfect` tier has mistake probability `0`, so the random branch
is never taken: on any board with an empty cell the selector returns the same
index for any two valid random draws. -/
theorem claim8 (b : Board) (ai hu : Player) (rng1 rng2 : Rng)
    (_hne : ai ≠ hu) (hav : availableOf b ≠ []) (h1 : rng1.Valid) (h2 : rng2.Valid) :
    mistakes Difficulty.perfect = 0 ∧
    (pickBestMove b ai hu Difficulty.perfect rng1).1
      = (pickBestMove b ai hu Difficulty.perfect rng2).1 := by
  refine ⟨rfl, ?_⟩
  have hr1 : ¬ rng1.roll < mistakes Difficulty.perfect := by
    rw [show mistakes Difficulty.perfect = 0 from rfl]
    exact not_lt.mpr h1.1
  have hr2 : ¬ rng2.roll < mistakes Difficulty.perfect := by
    rw [show mistakes Difficulty.perfect = 0 from rfl]
    exact not_lt.mpr h2.1
  cases hf1 : (availableOf b).find?
      (fun k => decide ((evaluateWinner (b.set k (some ai))).winner = some ai)) with
  | some m1 =>
    rw [pick_win b ai hu Difficulty.perfect rng1 m1 hav hf1,
      pick_win b ai hu Difficulty.perfect rng2 m1 hav hf1]
  | none =>
    cases hf2 : (availableOf b).find?
        (fun k => decide ((evaluateWinner (b.set k (some hu))).winner = some hu)) with
    | some m2 =>
      rw [pick_block b ai hu Difficulty.perfect rng1 m2 hav hf1 hf2,
        pick_block b ai hu Difficulty.perfect rng2 m2 hav hf1 hf2]
    | none =>
      rw [pick_search b ai hu Difficulty.perfect rng1 hav hf1 hf2 hr1,
        pick_search b ai hu Difficulty.perfect rng2 hav hf1 hf2 hr2]

theorem claim8_witness :
    (Player.X ≠ Player.O) ∧ availableOf (List.replicate 9 none) ≠ [] ∧
    Rng.Valid ⟨0, 0⟩ ∧ Rng.Valid ⟨1/2, 1/2⟩ ∧
    (mistakes Difficulty.perfect = 0 ∧
      (pickBestMove (List.replicate 9 none) Player.X Player.O Difficulty.perfect ⟨0, 0⟩).1
        = (pickBestMove (List.replicate 9 none) Player.X Player.O
            Difficulty.perfect ⟨1/2, 1/2⟩).1) :=
  ⟨by decide, by decide,
    ⟨le_refl 0, by norm_num, le_refl 0, by norm_num⟩,
    ⟨by norm_num, by norm_num, by norm_num, by norm_num⟩,
    claim8 (List.replicate 9 none) Player.X Player.O ⟨0, 0⟩ ⟨1/2, 1/2⟩ (by decide)
      (by decide) ⟨le_refl 0, by norm_num, le_refl 0, by norm_num⟩
      ⟨by norm_num, by norm_num, by norm_num, by norm_num⟩⟩

/-- C10: a board that is not full has a nonempty list of empty cells, so the
score list of every recursive minimax step is nonempty and the empty-spread
infinities of `Math.max`/`Math.min` are unreachable; every minimax score is
a finite integer. -/
theorem claim10 :
    (∀ b : Board, isFull b = false → availableOf b ≠ []) ∧
    (∀ (b : Board) (depth : Nat) (isMax : Bool) (ai hu : Player),
      ∃ z : Int, minimax b depth isMax ai hu = jsOfInt z) := by
  constructor
  · intro b hnf hav
    obtain ⟨i, hi, hc⟩ := (isFull_false_iff b).mp hnf
    have hmem := (avail_mem b i).mpr ⟨hi, hc⟩
    rw [hav] at hmem
    exact List.not_mem_nil i hmem
  · exact fun b depth isMax ai hu => minimax_finite b depth isMax ai hu

theorem claim10_witness :
    availableOf bWinX ≠ [] ∧
    ∃ z : Int, minimax bWinX 3 true Player.X Player.O = jsOfInt z :=
  ⟨claim10.1 bWinX (by decide), claim10.2 bWinX 3 true Player.X Player.O⟩

/-- C9: in every game from the empty board in which the automated player's
moves are chosen by `pickBestMove` at difficulty `perfect` (under any valid
random draws) and the opponent plays arbitrary legal replies, no reachable
position — and in particular no final one — has the opponent's mark
completing a winning line: the automated player wins or ties, never loses. -/
theorem claim9 (ai hu : Player) (b : Board) (t : Bool) (hne : ai ≠ hu)
    (hr : Reach ai hu b t) : (evaluateWinner b).winner ≠ some hu :=
  reach_never_loses ai hu hne b t hr

theorem claim9_witness :
    (Player.X ≠ Player.O) ∧
    (evaluateWinner ((List.replicate 9 none).set 4 (some Player.O))).winner
      ≠ some Player.O :=
  ⟨by decide, claim9 Player.X Player.O ((List.replicate 9 none).set 4 (some Player.O)) true
    (by decide)
    (Reach.humanMove Reach.startHuman (by decide) (by decide) (by decide))⟩
